import Mathlib

/-!
Verification development for the `stock-scraper` repository
(`src/stock_scraper.py`, class `ActiveTradingStockScraper`).

Shallow embedding conventions:
* Python floats are modelled as exact rationals (`ℚ`); `round(x, 2)` is
  modelled by `round2`, which rounds half to even exactly as CPython does
  on exact values.
* The network world is an explicit environment `Env`: for every Yahoo
  ticker string it yields the outcome of the `fast_info` lookup and of the
  `ticker.history` call.  An `Except.error ()` outcome models a raised
  exception; `Except.ok none` models a falsy / empty payload.
* Exception handling (`try ... except: continue / pass`) becomes the
  corresponding `Option` / `match` control flow, so the embedded functions
  are total over all environments.
* Thread-pool concurrency in `scrape_active_stocks_parallel` is modelled
  by an arbitrary completion schedule: `sched w batch` is the order in
  which the futures of `batch` complete under `w` workers, assumed to be a
  permutation of the batch.  A separate timing model (`scrapeWaitTime`)
  tracks how long the `as_completed` barrier waits, with `⊤ : WithTop ℕ`
  standing for a fetch that never completes.
-/

namespace StockScraper

/-- Outcome of `ticker.fast_info` for one Yahoo symbol: the fields the
scraper reads (`lastPrice`, `previousClose`, `marketCap`), each possibly
unavailable. -/
structure FastInfo where
  lastPrice : Option ℚ
  previousClose : Option ℚ
  marketCap : Option ℚ
deriving DecidableEq

/-- One row of `ticker.history(period="1d")`: the columns the scraper
reads, each possibly unavailable. -/
structure HistRow where
  volume : Option ℤ
  high : Option ℚ
  low : Option ℚ
  open_ : Option ℚ
deriving DecidableEq

/-- Network outcome for one Yahoo ticker string.  `Except.error ()` models
a raised exception, `Except.ok none` a falsy `fast_info` object
(respectively an empty history frame). -/
structure TickerData where
  fastInfo : Except Unit (Option FastInfo)
  hist : Except Unit (Option HistRow)

/-- The ambient world of one scraper run: network outcomes per ticker
string plus the wall-clock reading used for `scraped_at`. -/
structure Env where
  tickers : String → TickerData
  now : String

/-- The record dictionary built by `get_stock_data_yahoo_fast` (source
lines 716-733), with the exact same fields.  The Python field `open` is
spelled `open_` because `open` is a Lean keyword. -/
structure Quote where
  symbol : String
  yahoo_symbol : String
  name : String
  price : ℚ
  change : ℚ
  change_percent : ℚ
  volume : Option ℤ
  market_cap : Option ℚ
  previous_close : Option ℚ
  day_high : Option ℚ
  day_low : Option ℚ
  open_ : Option ℚ
  exchange : String
  currency : String
  source : String
  scraped_at : String
deriving DecidableEq

/-- Round half to even on the integers, the rounding mode of CPython
`round`. -/
def roundHalfEven (q : ℚ) : ℤ :=
  let f := ⌊q⌋
  let r := q - f
  if r < 1 / 2 then f
  else if 1 / 2 < r then f + 1
  else if f % 2 = 0 then f else f + 1

/-- Model of Python `round(x, 2)` on exact values. -/
def round2 (q : ℚ) : ℚ := (roundHalfEven (q * 100) : ℚ) / 100

/-- The value `q` is representable with at most two decimal places. -/
def hasTwoDecimals (q : ℚ) : Bool := (q * 100).den == 1

/-- The fields extracted from the best-effort `ticker.history` call
(source lines 704-714): empty or failed history leaves every field
`none`, mirroring `except: pass` around `basic_info`. -/
def histBasic : Except Unit (Option HistRow) → Option ℤ × Option ℚ × Option ℚ × Option ℚ
  | Except.ok (some r) => (r.volume, r.high, r.low, r.open_)
  | _ => (none, none, none, none)

/-- Construction of the result dictionary from a usable `fast_info`
(source lines 697-733): `previous_close` falls back to the price when the
key is unavailable, `change_percent` is guarded by Python truthiness of
`previous_close`, and only `price`, `change`, `change_percent` pass
through `round(..., 2)`. -/
def mkQuote (env : Env) (symbol suffix : String) (fi : FastInfo) (p : ℚ) : Quote :=
  let pc := fi.previousClose.getD p
  let chg := p - pc
  let chgPct := if pc = 0 then 0 else chg / pc * 100
  let basic := histBasic (env.tickers (symbol ++ suffix)).hist
  { symbol := symbol
    yahoo_symbol := symbol ++ suffix
    name := symbol
    price := round2 p
    change := round2 chg
    change_percent := round2 chgPct
    volume := basic.1
    market_cap := fi.marketCap
    previous_close := if pc = 0 then none else some pc
    day_high := basic.2.1
    day_low := basic.2.2.1
    open_ := basic.2.2.2
    exchange := if suffix = ".NS" then "NSE" else "BSE"
    currency := "INR"
    source := "Yahoo Finance Fast"
    scraped_at := env.now }

/-- One iteration of the suffix loop of `get_stock_data_yahoo_fast`
(source lines 681-736): every failure path (`except`, falsy `fast_info`,
missing or non-positive price) yields `none`, i.e. `continue`. -/
def trySuffix (env : Env) (symbol suffix : String) : Option Quote :=
  match (env.tickers (symbol ++ suffix)).fastInfo with
  | Except.error _ => none
  | Except.ok none => none
  | Except.ok (some fi) =>
    match fi.lastPrice with
    | none => none
    | some p => if p ≤ 0 then none else some (mkQuote env symbol suffix fi p)

/-- `get_stock_data_yahoo_fast` (source lines 677-744): try the `.NS`
suffix, then `.BO`; return the first usable quote, else `None`.  All
exceptions are swallowed, so the embedding is a total function. -/
def get_stock_data_yahoo_fast (env : Env) (symbol : String) : Option Quote :=
  match trySuffix env symbol ".NS" with
  | some q => some q
  | none => trySuffix env symbol ".BO"

/-- The list of Yahoo ticker strings contacted by one call of
`get_stock_data_yahoo_fast`, in order: the suffix loop issues exactly one
attempt per suffix and stops early on success. -/
def fetchAttempts (env : Env) (symbol : String) : List String :=
  match trySuffix env symbol ".NS" with
  | some _ => [symbol ++ ".NS"]
  | none => [symbol ++ ".NS", symbol ++ ".BO"]

/-- A ticker outcome offers a usable price: non-raising, truthy
`fast_info` with a present, positive `lastPrice` (the acceptance test of
source lines 688-695). -/
def usableFast (td : TickerData) : Bool :=
  match td.fastInfo with
  | Except.ok (some fi) =>
    match fi.lastPrice with
    | some p => decide (0 < p)
    | none => false
  | _ => false

/-- The history call of a ticker outcome raised an exception. -/
def histErrored (td : TickerData) : Bool :=
  match td.hist with
  | Except.error _ => true
  | _ => false

/-- Python `str.strip()`: drop whitespace from both ends. -/
def pyStrip (s : String) : String :=
  String.mk (((s.data.dropWhile Char.isWhitespace).reverse.dropWhile Char.isWhitespace).reverse)

/-- Python `str.upper()` on the ASCII symbols this scraper handles. -/
def pyUpper (s : String) : String := String.mk (s.data.map Char.toUpper)

/-- Python `str.isalpha()` on the ASCII symbols this scraper handles:
nonempty and every character alphabetic. -/
def pyIsAlpha (s : String) : Bool := !s.data.isEmpty && s.data.all Char.isAlpha

/-- The index and benchmark labels rejected by the validation loop. -/
def indexLabels : List String := ["INDEX", "NIFTY", "SENSEX", "BSE", "NSE"]

/-- The per-candidate validation of `get_comprehensive_symbol_list`
(source lines 464-473): trim and uppercase, then accept only purely
alphabetic candidates of length 2 to 20 outside the index blocklist. -/
def validateSymbol (s : String) : Option String :=
  if pyIsAlpha (pyUpper (pyStrip s)) && decide (2 ≤ (pyUpper (pyStrip s)).length)
      && decide ((pyUpper (pyStrip s)).length ≤ 20)
      && !(indexLabels.contains (pyUpper (pyStrip s))) then
    some (pyUpper (pyStrip s))
  else
    none

/-- The cleaning loop at the end of `get_comprehensive_symbol_list`
(source lines 463-476), applied to the union of the outcomes of every
symbol source (the sources themselves are external HTTP collaborators,
passed here as the already-unioned candidate list). -/
def get_comprehensive_symbol_list (allSymbols : List String) : List String :=
  allSymbols.filterMap validateSymbol

/-- Modelled from the spec: the validation rule as the specification
words it, namely keep only the alphabetic plus hyphen or underscore
characters of the trimmed, uppercased candidate and accept when the
filtered result has length in [2, 20].  Declared only to be compared with
the source validation `validateSymbol`. -/
def specValidateSymbol (s : String) : Option String :=
  let c := pyUpper (pyStrip s)
  let f := String.mk (c.data.filter (fun ch => ch.isAlpha || ch = '-' || ch = '_'))
  if decide (2 ≤ f.length) && decide (f.length ≤ 20) then some f else none

/-- The batch partition of `scrape_active_stocks_parallel` (source lines
755-756): consecutive chunks of `batch_size = 200` symbols. -/
def batches200 : List α → List (List α)
  | [] => []
  | x :: xs => (x :: xs.take 199) :: batches200 (xs.drop 199)
termination_by l => l.length
decreasing_by simp [List.length_drop]; omega

/-- Content model of `scrape_active_stocks_parallel` (source lines
746-813): per batch, up to `min max_workers batch.length` workers run the
fetches and `as_completed` delivers the results in the completion order
`sched (min max_workers batch.length) batch`; successful quotes are
appended in that order and batches are concatenated. -/
def scrape_active_stocks_parallel (fetch : String → Option Quote)
    (max_workers : ℕ) (sched : ℕ → List String → List String)
    (symbols : List String) : List Quote :=
  ((batches200 symbols).map
    (fun batch => (sched (min max_workers batch.length) batch).filterMap fetch)).flatten

/-- Timing model of the per-batch `as_completed` barrier (source lines
775-795): the batch is finished exactly when its slowest fetch finishes;
`⊤` is a fetch that never completes.  No timeout argument is passed to
`as_completed`, so the wait is unbounded. -/
def batchWaitTime (durs : List (WithTop ℕ)) : WithTop ℕ := durs.foldr max 0

/-- Timing model of one whole run of `scrape_active_stocks_parallel`:
the sum of the batch waits plus the one-second pause inserted between
consecutive batches (source line 810). -/
def scrapeWaitTime (dur : String → WithTop ℕ) (symbols : List String) : WithTop ℕ :=
  (((batches200 symbols).map (fun b => batchWaitTime (b.map dur))).foldr (· + ·) 0)
    + (((batches200 symbols).length - 1 : ℕ) : WithTop ℕ)

/-- One row of the scraped DataFrame as seen by the cleaning step of
`main` (source lines 854-856), projected to the columns that step reads:
`symbol` and the nullable `price` column. -/
structure DataRow where
  symbol : String
  price : Option ℚ
deriving DecidableEq

/-- `stock_data.dropna(subset=["price"])` (source line 854). -/
def dropna_price (t : List DataRow) : List DataRow :=
  t.filter (fun r => r.price.isSome)

/-- `stock_data[stock_data["price"] > 0]` (source line 855); a missing
price compares as false, exactly like NaN in pandas. -/
def filter_positive_price (t : List DataRow) : List DataRow :=
  t.filter (fun r =>
    match r.price with
    | some p => decide (0 < p)
    | none => false)

/-- Helper for `drop_duplicates(keep="first")`: keep a row only when its
symbol was not seen before. -/
def dropDupAux : List DataRow → List String → List DataRow
  | [], _ => []
  | r :: rs, seen =>
    if r.symbol ∈ seen then dropDupAux rs seen
    else r :: dropDupAux rs (r.symbol :: seen)

/-- `stock_data.drop_duplicates(subset=["symbol"], keep="first")`
(source line 856). -/
def drop_duplicates_first (t : List DataRow) : List DataRow := dropDupAux t []

/-- The full cleaning step of `main` (source lines 854-856), in source
order: drop missing prices, keep positive prices, dedup by symbol keeping
the first survivor. -/
def cleanTable (t : List DataRow) : List DataRow :=
  drop_duplicates_first (filter_positive_price (dropna_price t))

/-- The methods actually defined on class `ActiveTradingStockScraper`
(source lines 14-813). -/
def scraperMethodNames : List String :=
  ["__init__", "_initialize_session", "get_active_nse_symbols_from_bhavcopy",
   "get_startup_unicorn_symbols", "get_symbols_from_marketwatch_screener",
   "get_symbols_from_trading_APIs", "get_comprehensive_symbol_list",
   "get_known_active_symbols", "get_stock_data_yahoo_fast",
   "scrape_active_stocks_parallel"]

/-- A Python attribute call on the scraper instance: raises
`AttributeError` when the method is not defined on the class. -/
def callMethod (name : String) (arg : List DataRow) : Except String (List DataRow) :=
  if name ∈ scraperMethodNames then Except.ok arg else Except.error "AttributeError"

/-- Observable outcome of the tail of `main` (source lines 848-951). -/
inductive MainOutcome
  /-- Data was cleaned and saved; success banner printed. -/
  | savedOk
  /-- Empty scrape: the operator sees the clear status message
  `No active stock data retrieved` and `main` returns `False`. -/
  | noData
  /-- An exception reached the top-level handler of `main`, which prints
  `Critical error` and a full stack trace via `traceback.print_exc()`. -/
  | criticalError
deriving DecidableEq

/-- The tail of `main` (source lines 848-951): on a non-empty scraped
table, clean it and call `save_comprehensive_data` on a scraper instance;
any exception escaping that call lands in the top-level handler, which
prints a stack trace. -/
def mainPhase3 (table : List DataRow) : MainOutcome :=
  if table.isEmpty then MainOutcome.noData
  else
    match callMethod "save_comprehensive_data" (cleanTable table) with
    | Except.ok _ => MainOutcome.savedOk
    | Except.error _ => MainOutcome.criticalError

/-! ## Concrete environments used by witnesses and counterexamples -/

/-- A world in which every network interaction raises. -/
def envAllErr : Env := ⟨fun _ => ⟨Except.error (), Except.error ()⟩, "t"⟩

/-- A world in which only `AAA.NS` answers: price 100, previous close
90.125 (a value with three decimal places), no market cap, empty
history. -/
def envNSGood : Env :=
  ⟨fun t => if t = "AAA" ++ ".NS" then
      ⟨Except.ok (some ⟨some 100, some (721 / 8), none⟩), Except.ok none⟩
    else ⟨Except.error (), Except.error ()⟩, "t"⟩

/-- A world in which `AAA.NS` has a usable fast price and market cap but
the best-effort history call raises. -/
def envHistErr : Env :=
  ⟨fun t => if t = "AAA" ++ ".NS" then
      ⟨Except.ok (some ⟨some 100, some 90, some 5000⟩), Except.error ()⟩
    else ⟨Except.error (), Except.error ()⟩, "t"⟩

/-- The same world as `envHistErr` except that the history call succeeds
with a full row; the `fast_info` outcomes agree everywhere. -/
def envHistOk : Env :=
  ⟨fun t => if t = "AAA" ++ ".NS" then
      ⟨Except.ok (some ⟨some 100, some 90, some 5000⟩), Except.ok (some ⟨some 7, some 101, some 99, some 100⟩)⟩
    else ⟨Except.error (), Except.error ()⟩, "t"⟩

/-- A fixed quote used to exercise the dispatcher model. -/
def stubQuote : Quote :=
  { symbol := "AAA", yahoo_symbol := "AAA.NS", name := "AAA", price := 100,
    change := 0, change_percent := 0, volume := none, market_cap := none,
    previous_close := some 100, day_high := none, day_low := none,
    open_ := none, exchange := "NSE", currency := "INR",
    source := "Yahoo Finance Fast", scraped_at := "t" }

/-- A stub fetcher resolving only the symbol `AAA`. -/
def stubFetch (s : String) : Option Quote :=
  if s = "AAA" then some stubQuote else none

/-! ## Fetcher lemmas -/

/-- Characterization of a successful suffix attempt: it happens exactly
when `fast_info` is available with a positive price, and the returned
record is `mkQuote`. -/
theorem trySuffix_eq_some_iff (env : Env) (s suf : String) (q : Quote) :
    trySuffix env s suf = some q ↔
      ∃ fi p, (env.tickers (s ++ suf)).fastInfo = Except.ok (some fi)
        ∧ fi.lastPrice = some p ∧ 0 < p ∧ q = mkQuote env s suf fi p := by
  unfold trySuffix
  rcases hfi : (env.tickers (s ++ suf)).fastInfo with u | o
  · simp [hfi]
  · rcases o with _ | fi
    · simp [hfi]
    · rcases hlp : fi.lastPrice with _ | p
      · simp [hfi, hlp]
      · by_cases hp : p ≤ 0
        · simp [hfi, hlp, if_pos hp, not_lt.mpr hp]
        · simp [hfi, hlp, if_neg hp, lt_of_not_le hp, eq_comm]

/-- A suffix attempt fails exactly when the ticker has no usable fast
price. -/
theorem trySuffix_eq_none_iff (env : Env) (s suf : String) :
    trySuffix env s suf = none ↔ usableFast (env.tickers (s ++ suf)) = false := by
  unfold trySuffix usableFast
  rcases hfi : (env.tickers (s ++ suf)).fastInfo with u | o
  · simp [hfi]
  · rcases o with _ | fi
    · simp [hfi]
    · rcases hlp : fi.lastPrice with _ | p
      · simp [hfi, hlp]
      · by_cases hp : p ≤ 0
        · simp [hfi, hlp, if_pos hp, not_lt.mpr hp]
        · simp [hfi, hlp, if_neg hp, lt_of_not_le hp]

/-- Every successful fetch goes through one of the two suffix attempts,
the secondary one only after the primary failed. -/
theorem fetch_cases (env : Env) (s : String) (q : Quote)
    (h : get_stock_data_yahoo_fast env s = some q) :
    trySuffix env s ".NS" = some q
      ∨ (trySuffix env s ".NS" = none ∧ trySuffix env s ".BO" = some q) := by
  unfold get_stock_data_yahoo_fast at h
  rcases hns : trySuffix env s ".NS" with _ | q'
  · rw [hns] at h; exact Or.inr ⟨rfl, h⟩
  · rw [hns] at h; exact Or.inl h

/-- Rounding to two decimals really produces a value with at most two
decimal places. -/
theorem hasTwoDecimals_round2 (x : ℚ) : hasTwoDecimals (round2 x) = true := by
  unfold hasTwoDecimals round2
  rw [div_mul_cancel₀ _ (by norm_num : (100 : ℚ) ≠ 0)]
  simp [Rat.den_intCast]

/-! ## Dispatcher lemmas -/

/-- Every element of the symbol list lands in one of its batches. -/
theorem mem_batches200 {α : Type} {s : α} :
    ∀ {l : List α}, s ∈ l → ∃ b ∈ batches200 l, s ∈ b := by
  intro l
  induction l using batches200.induct with
  | case1 => intro h; cases h
  | case2 x xs ih =>
    intro h
    rw [batches200]
    rcases List.mem_cons.mp h with rfl | hxs
    · exact ⟨_, List.mem_cons_self _ _, List.mem_cons_self _ _⟩
    · rcases List.mem_append.mp ((List.take_append_drop 199 xs) ▸ hxs) with htk | hdr
      · exact ⟨_, List.mem_cons_self _ _, List.mem_cons_of_mem _ htk⟩
      · obtain ⟨b, hb, hsb⟩ := ih hdr
        exact ⟨b, List.mem_cons_of_mem _ hb, hsb⟩

/-- Conversely, batches contain only symbols of the input list. -/
theorem batches200_subset {α : Type} {b : List α} {x : α} :
    ∀ {l : List α}, b ∈ batches200 l → x ∈ b → x ∈ l := by
  intro l
  induction l using batches200.induct with
  | case1 => intro hb; rw [batches200] at hb; cases hb
  | case2 y ys ih =>
    intro hb hx
    rw [batches200] at hb
    rcases List.mem_cons.mp hb with rfl | hb
    · rcases List.mem_cons.mp hx with rfl | hx
      · exact List.mem_cons_self _ _
      · exact List.mem_cons_of_mem _ (List.take_subset _ _ hx)
    · exact List.mem_cons_of_mem _ (List.drop_subset _ _ (ih hb hx))

/-- Joining maps which are pointwise permutations gives permuted
results. -/
theorem flatten_map_perm {α β : Type} (L : List α) (f g : α → List β)
    (h : ∀ b ∈ L, (f b).Perm (g b)) :
    ((L.map f).flatten).Perm ((L.map g).flatten) := by
  induction L with
  | nil => simp
  | cons b L ih =>
    simp only [List.map_cons, List.flatten_cons]
    exact (h b (List.mem_cons_self _ _)).append
      (ih (fun c hc => h c (List.mem_cons_of_mem _ hc)))

/-- The `as_completed` barrier of a batch terminates exactly when every
fetch of the batch completes. -/
theorem batchWaitTime_ne_top (durs : List (WithTop ℕ)) :
    batchWaitTime durs ≠ ⊤ ↔ ∀ d ∈ durs, d ≠ ⊤ := by
  unfold batchWaitTime
  induction durs with
  | nil =>
    simp only [List.foldr_nil]
    constructor
    · intro _ d hd; cases hd
    · intro _ h
      exact (WithTop.coe_ne_top : ((0 : ℕ) : WithTop ℕ) ≠ ⊤) h
  | cons d ds ih =>
    simp only [List.foldr_cons]
    constructor
    · intro h e he
      rcases List.mem_cons.mp he with rfl | he
      · intro htop
        exact h (max_eq_top.mpr (Or.inl htop))
      · exact ih.mp (fun hmax => h (max_eq_top.mpr (Or.inr hmax))) e he
    · intro h htop
      rcases max_eq_top.mp htop with h1 | h2
      · exact h d (List.mem_cons_self _ _) h1
      · exact (ih.mpr (fun e he => h e (List.mem_cons_of_mem _ he))) h2

/-- A foldr-sum over `WithTop ℕ` is finite exactly when every summand
is. -/
theorem foldr_add_ne_top (L : List (WithTop ℕ)) :
    L.foldr (· + ·) 0 ≠ ⊤ ↔ ∀ x ∈ L, x ≠ ⊤ := by
  induction L with
  | nil =>
    simp only [List.foldr_nil]
    constructor
    · intro _ x hx; cases hx
    · intro _ h
      exact (WithTop.coe_ne_top : ((0 : ℕ) : WithTop ℕ) ≠ ⊤) h
  | cons x xs ih =>
    simp only [List.foldr_cons]
    rw [WithTop.add_ne_top, ih]
    constructor
    · rintro ⟨hx, hxs⟩ e he
      rcases List.mem_cons.mp he with rfl | he
      · exact hx
      · exact hxs e he
    · intro h
      exact ⟨h x (List.mem_cons_self _ _), fun e he => h e (List.mem_cons_of_mem _ he)⟩

/-- The dispatcher run terminates exactly when every fetch of every
symbol completes: there is no per-batch timeout to drop stragglers. -/
theorem scrapeWaitTime_ne_top (dur : String → WithTop ℕ) (symbols : List String) :
    scrapeWaitTime dur symbols ≠ ⊤ ↔ ∀ s ∈ symbols, dur s ≠ ⊤ := by
  unfold scrapeWaitTime
  rw [WithTop.add_ne_top]
  constructor
  · rintro ⟨hsum, _⟩ s hs
    obtain ⟨b, hb, hsb⟩ := mem_batches200 hs
    have hbatch := (foldr_add_ne_top _).mp hsum (batchWaitTime (b.map dur))
      (List.mem_map.mpr ⟨b, hb, rfl⟩)
    exact (batchWaitTime_ne_top _).mp hbatch (dur s) (List.mem_map.mpr ⟨s, hsb, rfl⟩)
  · intro h
    refine ⟨(foldr_add_ne_top _).mpr ?_, WithTop.natCast_ne_top _⟩
    intro x hx
    obtain ⟨b, hb, rfl⟩ := List.mem_map.mp hx
    refine (batchWaitTime_ne_top _).mpr ?_
    intro d hd
    obtain ⟨s, hsb, rfl⟩ := List.mem_map.mp hd
    exact h s (batches200_subset hb hsb)

/-! ## Aggregator lemmas -/

/-- Deduplication only keeps rows of its input. -/
theorem dropDupAux_subset :
    ∀ (t : List DataRow) (seen : List String) (r : DataRow),
      r ∈ dropDupAux t seen → r ∈ t := by
  intro t
  induction t with
  | nil => intro seen r h; cases h
  | cons x xs ih =>
    intro seen r h
    rw [dropDupAux] at h
    by_cases hx : x.symbol ∈ seen
    · rw [if_pos hx] at h
      exact List.mem_cons_of_mem _ (ih seen r h)
    · rw [if_neg hx] at h
      rcases List.mem_cons.mp h with rfl | h
      · exact List.mem_cons_self _ _
      · exact List.mem_cons_of_mem _ (ih _ r h)

/-- After deduplication the symbols are pairwise distinct and avoid the
accumulator of already-seen symbols. -/
theorem dropDupAux_nodup :
    ∀ (t : List DataRow) (seen : List String),
      ((dropDupAux t seen).map (fun r => r.symbol)).Nodup
        ∧ ∀ s ∈ (dropDupAux t seen).map (fun r => r.symbol), s ∉ seen := by
  intro t
  induction t with
  | nil => intro seen; simp [dropDupAux]
  | cons x xs ih =>
    intro seen
    rw [dropDupAux]
    by_cases hx : x.symbol ∈ seen
    · rw [if_pos hx]; exact ih seen
    · rw [if_neg hx]
      obtain ⟨hnd, hav⟩ := ih (x.symbol :: seen)
      refine ⟨List.nodup_cons.mpr ⟨?_, hnd⟩, ?_⟩
      · intro hmem
        exact hav _ hmem (List.mem_cons_self _ _)
      · intro s hs
        rcases List.mem_cons.mp hs with rfl | hs
        · exact hx
        · intro hseen
          exact hav s hs (List.mem_cons_of_mem _ hseen)

/-- Every retained row is the first row of the input carrying its
symbol. -/
theorem dropDupAux_find :
    ∀ (t : List DataRow) (seen : List String) (r : DataRow),
      r ∈ dropDupAux t seen →
        r.symbol ∉ seen
          ∧ t.find? (fun x => x.symbol == r.symbol) = some r := by
  intro t
  induction t with
  | nil => intro seen r h; cases h
  | cons x xs ih =>
    intro seen r h
    rw [dropDupAux] at h
    by_cases hx : x.symbol ∈ seen
    · rw [if_pos hx] at h
      obtain ⟨hns, hfind⟩ := ih seen r h
      have hne : (x.symbol == r.symbol) = false := by
        rw [beq_eq_false_iff_ne]
        intro he
        exact hns (he ▸ hx)
      refine ⟨hns, ?_⟩
      rw [List.find?_cons_of_neg _ (by simp [hne]), hfind]
    · rw [if_neg hx] at h
      rcases List.mem_cons.mp h with rfl | h
      · exact ⟨hx, by rw [List.find?_cons_of_pos _ (by simp)]⟩
      · obtain ⟨hns, hfind⟩ := ih _ r h
        have hnx : r.symbol ≠ x.symbol := fun he =>
          hns (he ▸ List.mem_cons_self _ _)
        refine ⟨fun hseen => hns (List.mem_cons_of_mem _ hseen), ?_⟩
        rw [List.find?_cons_of_neg _ (by simp [hnx.symm]), hfind]

/-- Rows surviving the positive-price filter have a present, positive
price. -/
theorem mem_filter_positive_price {t : List DataRow} {r : DataRow}
    (h : r ∈ filter_positive_price t) : ∃ p, r.price = some p ∧ 0 < p := by
  unfold filter_positive_price at h
  obtain ⟨_, hpred⟩ := List.mem_filter.mp h
  rcases hp : r.price with _ | p
  · rw [hp] at hpred; cases hpred
  · rw [hp] at hpred
    exact ⟨p, rfl, by simpa using hpred⟩

/-- Rounding zero gives zero. -/
theorem round2_zero : round2 0 = 0 := by
  unfold round2 roundHalfEven
  norm_num

/-- Projections of the constructed quote record, spelled out once. -/
theorem mkQuote_fields (env : Env) (s suf : String) (fi : FastInfo) (p : ℚ) :
    (mkQuote env s suf fi p).price = round2 p
    ∧ (mkQuote env s suf fi p).change = round2 (p - fi.previousClose.getD p)
    ∧ (mkQuote env s suf fi p).change_percent
        = round2 (if fi.previousClose.getD p = 0 then 0
            else (p - fi.previousClose.getD p) / fi.previousClose.getD p * 100)
    ∧ (mkQuote env s suf fi p).previous_close
        = (if fi.previousClose.getD p = 0 then none else some (fi.previousClose.getD p)) :=
  ⟨rfl, rfl, rfl, rfl⟩

/-! ## Claim theorems -/

/-- C1: for every finite set of input symbols and every worker limit
(including one worker and at least as many workers as symbols), the
parallel scrape resolves every submitted symbol before returning — every
successful fetch lands in the result table, a failed fetch is simply
absent — and the content of the returned table, as a multiset, does not
depend on the order in which individual fetches complete (nor on the
worker limit). -/
theorem c1_dispatcher_liveness_and_order_independence
    (fetch : String → Option Quote) (symbols : List String)
    (W₁ W₂ : ℕ) (sched₁ sched₂ : ℕ → List String → List String)
    (h₁ : ∀ n b, (sched₁ n b).Perm b) (h₂ : ∀ n b, (sched₂ n b).Perm b) :
    (∀ s ∈ symbols, ∀ q, fetch s = some q →
        q ∈ scrape_active_stocks_parallel fetch W₁ sched₁ symbols)
    ∧ (scrape_active_stocks_parallel fetch W₁ sched₁ symbols : Multiset Quote)
      = (scrape_active_stocks_parallel fetch W₂ sched₂ symbols : Multiset Quote) := by
  constructor
  · intro s hs q hq
    obtain ⟨b, hb, hsb⟩ := mem_batches200 hs
    unfold scrape_active_stocks_parallel
    refine List.mem_flatten.mpr ⟨_, List.mem_map.mpr ⟨b, hb, rfl⟩, ?_⟩
    exact List.mem_filterMap.mpr ⟨s, ((h₁ _ b).mem_iff).mpr hsb, hq⟩
  · rw [Multiset.coe_eq_coe]
    unfold scrape_active_stocks_parallel
    apply flatten_map_perm
    intro b _
    exact ((h₁ _ b).trans (h₂ _ b).symm).filterMap fetch

/-- Witness for C1 at a concrete stub fetcher, two symbols, one worker
and the identity completion schedule. -/
theorem c1_witness :
    stubQuote ∈ scrape_active_stocks_parallel stubFetch 1 (fun _ b => b) ["AAA", "BBB"] :=
  (c1_dispatcher_liveness_and_order_independence stubFetch ["AAA", "BBB"] 1 1
      (fun _ b => b) (fun _ b => b)
      (fun _ _ => List.Perm.refl _) (fun _ _ => List.Perm.refl _)).1
    "AAA" (by decide) stubQuote (by decide)

/-- C2, counterexample to the claim as stated: on a table whose first
`AAA` row lacks a price, the cleaning step retains the second `AAA` row,
which is not the first-encountered row for that symbol in the insertion
order of the table. -/
theorem c2_counterexample :
    cleanTable [⟨"AAA", none⟩, ⟨"AAA", some 5⟩] = [⟨"AAA", some 5⟩]
    ∧ List.find? (fun r => r.symbol == "AAA")
        [(⟨"AAA", none⟩ : DataRow), ⟨"AAA", some 5⟩] = some ⟨"AAA", none⟩
    ∧ (⟨"AAA", none⟩ : DataRow) ≠ ⟨"AAA", some 5⟩ := by decide

/-- C2, amended: after cleaning, every retained row has a present
positive price, symbols are pairwise distinct (so the number of distinct
symbols equals the number of rows), and each retained row is the
first-encountered row for its symbol among those with a usable price. -/
theorem c2_amended_clean_invariants (t : List DataRow) :
    (∀ r ∈ cleanTable t, ∃ p, r.price = some p ∧ 0 < p)
    ∧ ((cleanTable t).map (fun r => r.symbol)).Nodup
    ∧ ∀ r ∈ cleanTable t,
        (filter_positive_price (dropna_price t)).find?
          (fun x => x.symbol == r.symbol) = some r := by
  refine ⟨?_, ?_, ?_⟩
  · intro r hr
    exact mem_filter_positive_price (dropDupAux_subset _ _ _ hr)
  · exact (dropDupAux_nodup _ _).1
  · intro r hr
    exact (dropDupAux_find _ _ _ hr).2

/-- Witness for C2 on a concrete two-row table. -/
theorem c2_witness :
    ∃ p, (⟨"AAA", some 5⟩ : DataRow).price = some p ∧ 0 < p :=
  (c2_amended_clean_invariants [⟨"AAA", none⟩, ⟨"AAA", some 5⟩]).1
    ⟨"AAA", some 5⟩ (by decide)

/-- C3: the per-symbol fetch is a total function into `Option Quote`
(never raises, by construction of the embedding over arbitrary
environments, including all-raising ones); the primary venue suffix
`.NS` wins whenever it is usable, and the fetch returns nothing exactly
when both suffixes fail to yield a positive numeric price. -/
theorem c3_fetch_contract (env : Env) (s : String) :
    (usableFast (env.tickers (s ++ ".NS")) = true →
      ∃ q, get_stock_data_yahoo_fast env s = some q
        ∧ q.exchange = "NSE" ∧ q.yahoo_symbol = s ++ ".NS")
    ∧ (get_stock_data_yahoo_fast env s = none ↔
        usableFast (env.tickers (s ++ ".NS")) = false
          ∧ usableFast (env.tickers (s ++ ".BO")) = false) := by
  constructor
  · intro hu
    rcases hns : trySuffix env s ".NS" with _ | q
    · rw [trySuffix_eq_none_iff] at hns
      rw [hns] at hu; cases hu
    · obtain ⟨fi, p, hfi, hlp, hp, rfl⟩ := (trySuffix_eq_some_iff env s ".NS" q).mp hns
      refine ⟨mkQuote env s ".NS" fi p, ?_, ?_, rfl⟩
      · unfold get_stock_data_yahoo_fast
        rw [hns]
      · simp [mkQuote]
  · constructor
    · intro h
      have hns : trySuffix env s ".NS" = none := by
        unfold get_stock_data_yahoo_fast at h
        rcases hx : trySuffix env s ".NS" with _ | q
        · rfl
        · rw [hx] at h; cases h
      have hbo : trySuffix env s ".BO" = none := by
        unfold get_stock_data_yahoo_fast at h
        rw [hns] at h; exact h
      exact ⟨(trySuffix_eq_none_iff _ _ _).mp hns, (trySuffix_eq_none_iff _ _ _).mp hbo⟩
    · rintro ⟨h1, h2⟩
      unfold get_stock_data_yahoo_fast
      rw [(trySuffix_eq_none_iff _ _ _).mpr h1, (trySuffix_eq_none_iff _ _ _).mpr h2]

/-- Witness for C3 at a concrete environment whose `.NS` endpoint has a
usable price. -/
theorem c3_witness :
    ∃ q, get_stock_data_yahoo_fast envNSGood "AAA" = some q
      ∧ q.exchange = "NSE" ∧ q.yahoo_symbol = "AAA" ++ ".NS" :=
  (c3_fetch_contract envNSGood "AAA").1 (by decide)

/-- C4: in every fetched quote whose `previous_close` field is present
and nonzero, `price`, `change` and `change_percent` are the two-decimal
roundings of `p`, `p - pc` and `(p - pc) / pc * 100` for the one
pre-rounding positive price `p` (so the claimed identity holds within
the tolerance of the roundings applied); a `none` previous close means
the computed previous close was zero, in which case the guard forces
`change_percent = 0`; and when `previousClose` is unavailable the code
falls back to the fetched price, yielding `change = 0` and
`change_percent = 0`. -/
theorem c4_change_semantics (env : Env) (s : String) :
    (∀ q, get_stock_data_yahoo_fast env s = some q →
      (∀ pc, q.previous_close = some pc → pc ≠ 0 →
          ∃ p₀, 0 < p₀ ∧ q.price = round2 p₀ ∧ q.change = round2 (p₀ - pc)
            ∧ q.change_percent = round2 ((p₀ - pc) / pc * 100))
        ∧ (q.previous_close = none → q.change = q.price ∧ q.change_percent = 0))
    ∧ (∀ fi p, (env.tickers (s ++ ".NS")).fastInfo = Except.ok (some fi) →
        fi.lastPrice = some p → 0 < p → fi.previousClose = none →
        ∃ q, get_stock_data_yahoo_fast env s = some q ∧ q.previous_close = some p
          ∧ q.change = 0 ∧ q.change_percent = 0) := by
  constructor
  · intro q hq
    have hchar : ∃ suf fi p, 0 < p ∧ q = mkQuote env s suf fi p := by
      rcases fetch_cases env s q hq with hns | ⟨_, hbo⟩
      · obtain ⟨fi, p, _, _, hp, rfl⟩ := (trySuffix_eq_some_iff _ _ _ _).mp hns
        exact ⟨".NS", fi, p, hp, rfl⟩
      · obtain ⟨fi, p, _, _, hp, rfl⟩ := (trySuffix_eq_some_iff _ _ _ _).mp hbo
        exact ⟨".BO", fi, p, hp, rfl⟩
    obtain ⟨suf, fi, p, hp, rfl⟩ := hchar
    obtain ⟨hprice, hchg, hcp, hpcf⟩ := mkQuote_fields env s suf fi p
    constructor
    · intro pc hpc hpcne
      rw [hpcf] at hpc
      by_cases hz : fi.previousClose.getD p = 0
      · rw [if_pos hz] at hpc; cases hpc
      · rw [if_neg hz] at hpc
        have hpce : fi.previousClose.getD p = pc := by
          exact Option.some.inj hpc
        refine ⟨p, hp, hprice, ?_, ?_⟩
        · rw [hchg, hpce]
        · rw [hcp, hpce, if_neg hpcne]
    · intro hnone
      rw [hpcf] at hnone
      by_cases hz : fi.previousClose.getD p = 0
      · constructor
        · rw [hchg, hprice, hz, sub_zero]
        · rw [hcp, if_pos hz, round2_zero]
      · rw [if_neg hz] at hnone; cases hnone
  · intro fi p hfi hlp hp hnopc
    have hns : trySuffix env s ".NS" = some (mkQuote env s ".NS" fi p) :=
      (trySuffix_eq_some_iff _ _ _ _).mpr ⟨fi, p, hfi, hlp, hp, rfl⟩
    refine ⟨mkQuote env s ".NS" fi p, ?_, ?_, ?_, ?_⟩
    · unfold get_stock_data_yahoo_fast
      rw [hns]
    · obtain ⟨_, _, _, hpcf⟩ := mkQuote_fields env s ".NS" fi p
      rw [hpcf, hnopc]
      simp [Option.getD, ne_of_gt hp]
    · obtain ⟨_, hchg, _, _⟩ := mkQuote_fields env s ".NS" fi p
      rw [hchg, hnopc]
      simp [Option.getD, round2_zero]
    · obtain ⟨_, _, hcp, _⟩ := mkQuote_fields env s ".NS" fi p
      rw [hcp, hnopc]
      simp only [Option.getD]
      rw [if_neg (by simpa using ne_of_gt hp), sub_self, zero_div, zero_mul, round2_zero]

unseal Rat.sub Rat.mul Rat.add Rat.inv in
/-- Witness for C4 at a concrete environment with price 100 and previous
close 90.125. -/
theorem c4_witness :
    ∃ q p₀, get_stock_data_yahoo_fast envNSGood "AAA" = some q ∧ 0 < p₀
      ∧ q.price = round2 p₀ ∧ q.change = round2 (p₀ - 721 / 8)
      ∧ q.change_percent = round2 ((p₀ - 721 / 8) / (721 / 8) * 100) := by
  have h : get_stock_data_yahoo_fast envNSGood "AAA"
      = some (mkQuote envNSGood "AAA" ".NS" ⟨some 100, some (721 / 8), none⟩ 100) := by
    decide
  obtain ⟨p₀, hp₀, h1, h2, h3⟩ :=
    ((c4_change_semantics envNSGood "AAA").1 _ h).1 (721 / 8) (by decide) (by norm_num)
  exact ⟨_, p₀, h, hp₀, h1, h2, h3⟩

/-- C5, counterexample to the claim as stated: the claimed rule (keep
the alphabetic-plus-hyphen/underscore characters and accept on length in
[2, 20]) accepts `BAJAJ-AUTO`, but the source validation rejects it —
`isalpha` admits no hyphen or underscore and no character filtering is
performed. -/
theorem c5_counterexample :
    validateSymbol "BAJAJ-AUTO" = none
    ∧ specValidateSymbol "BAJAJ-AUTO" = some "BAJAJ-AUTO" := by decide

/-- C5, amended: every symbol surviving validation is the trimmed,
uppercased candidate, purely alphabetic (hyphen and underscore are
rejected, not kept), of length in [2, 20], and not an index label. -/
theorem c5_amended_validation (syms : List String) :
    ∀ c ∈ get_comprehensive_symbol_list syms,
      (∃ s ∈ syms, c = pyUpper (pyStrip s))
      ∧ pyIsAlpha c = true ∧ 2 ≤ c.length ∧ c.length ≤ 20 ∧ c ∉ indexLabels := by
  intro c hc
  obtain ⟨s, hs, hv⟩ := List.mem_filterMap.mp hc
  unfold validateSymbol at hv
  split at hv
  · rename_i hcond
    cases hv
    simp only [Bool.and_eq_true, decide_eq_true_eq, Bool.not_eq_true'] at hcond
    obtain ⟨⟨⟨halpha, hlen2⟩, hlen20⟩, hcont⟩ := hcond
    refine ⟨⟨s, hs, rfl⟩, halpha, hlen2, hlen20, ?_⟩
    intro hmem
    rw [List.contains_eq_any_beq] at hcont
    have hany : (indexLabels.any fun x => pyUpper (pyStrip s) == x) = true :=
      List.any_eq_true.mpr ⟨_, hmem, by simp⟩
    rw [hany] at hcont
    cases hcont
  · cases hv

/-- Witness for C5 on a concrete candidate list. -/
theorem c5_witness :
    (∃ s ∈ ["  reliance "], "RELIANCE" = pyUpper (pyStrip s))
    ∧ pyIsAlpha "RELIANCE" = true ∧ 2 ≤ ("RELIANCE" : String).length
    ∧ ("RELIANCE" : String).length ≤ 20 ∧ "RELIANCE" ∉ indexLabels :=
  c5_amended_validation ["  reliance "] "RELIANCE" (by decide)

/-- C6, counterexample to the claim as stated: with every endpoint
failing (a permanently transient world), the primary endpoint of symbol
`AAA` is contacted exactly once — there is no re-attempt of the same
endpoint, hence no bounded retry loop with backoff. -/
theorem c6_counterexample :
    (fetchAttempts envAllErr "AAA").count ("AAA" ++ ".NS") = 1
    ∧ ¬ 2 ≤ (fetchAttempts envAllErr "AAA").count ("AAA" ++ ".NS") := by decide

/-- Appending the two distinct venue suffixes to the same symbol gives
distinct ticker strings. -/
theorem append_NS_ne_append_BO (s : String) : s ++ ".NS" ≠ s ++ ".BO" := by
  intro h
  have h2 : (s ++ ".NS").data = (s ++ ".BO").data := congrArg String.data h
  rw [String.data_append, String.data_append] at h2
  have h3 := List.append_cancel_left h2
  cases h3

/-- C6, amended: each endpoint is attempted at most once per fetch (the
attempt list has no duplicates); on any failure the fetcher moves
directly to the next suffix, and a fetch that returns nothing has
attempted exactly the primary then the secondary endpoint, once each,
with no retries and no backoff. -/
theorem c6_amended_no_retry (env : Env) (s : String) :
    (fetchAttempts env s).Nodup
    ∧ (get_stock_data_yahoo_fast env s = none →
        fetchAttempts env s = [s ++ ".NS", s ++ ".BO"]) := by
  constructor
  · unfold fetchAttempts
    rcases hns : trySuffix env s ".NS" with _ | q
    · simp [append_NS_ne_append_BO s]
    · simp
  · intro h
    have hns : trySuffix env s ".NS" = none := by
      unfold get_stock_data_yahoo_fast at h
      rcases hx : trySuffix env s ".NS" with _ | q
      · rfl
      · rw [hx] at h; cases h
    unfold fetchAttempts
    rw [hns]

/-- Witness for C6 at the all-failing environment. -/
theorem c6_witness :
    fetchAttempts envAllErr "BBB" = ["BBB" ++ ".NS", "BBB" ++ ".BO"] :=
  (c6_amended_no_retry envAllErr "BBB").2 (by decide)

/-- C7, counterexample to the claim as stated: with a fetcher that never
completes, the dispatcher run does not return within 300 seconds (it
never returns at all): `as_completed` is called without a timeout and
the pool join waits for every future. -/
theorem c7_counterexample :
    ¬ scrapeWaitTime (fun _ => (⊤ : WithTop ℕ)) ["AAA"] ≤ ((300 : ℕ) : WithTop ℕ) := by
  intro h
  have htop : scrapeWaitTime (fun _ => (⊤ : WithTop ℕ)) ["AAA"] = ⊤ := by
    by_contra hne
    exact ((scrapeWaitTime_ne_top _ _).mp hne) "AAA" (by decide) rfl
  rw [htop, top_le_iff] at h
  exact WithTop.natCast_ne_top 300 h

/-- C7, amended: the dispatcher has no per-batch timeout: a run
terminates exactly when every fetch of every submitted symbol
terminates, and a single never-completing fetch makes the run wait
forever — no straggler result is ever dropped. -/
theorem c7_amended_no_batch_timeout (dur : String → WithTop ℕ) (symbols : List String) :
    scrapeWaitTime dur symbols ≠ ⊤ ↔ ∀ s ∈ symbols, dur s ≠ ⊤ :=
  scrapeWaitTime_ne_top dur symbols

/-- Witness for C7: with a five-second fetch the run terminates. -/
theorem c7_witness :
    scrapeWaitTime (fun _ => ((5 : ℕ) : WithTop ℕ)) ["AAA"] ≠ ⊤ :=
  (c7_amended_no_batch_timeout (fun _ => ((5 : ℕ) : WithTop ℕ)) ["AAA"]).mpr
    (fun _ _ => WithTop.natCast_ne_top 5)

/-- C8: the claim fails on the code and the code is the slip: `main`
calls `save_comprehensive_data`, which is defined nowhere on the class,
so every run with a non-empty scraped table raises `AttributeError` and
the top-level handler prints a stack trace — while an empty table indeed
yields the clear `noData` status the claim describes. -/
theorem c8_missing_save_method :
    "save_comprehensive_data" ∉ scraperMethodNames
    ∧ mainPhase3 [⟨"AAA", some 100⟩] = MainOutcome.criticalError
    ∧ mainPhase3 [] = MainOutcome.noData := by decide

unseal Rat.sub Rat.mul Rat.add Rat.inv in
/-- C9, counterexample to the claim as stated: a fetched quote carries
`previous_close = 90.125`, a value with three decimal places — the code
stores `previous_close` (and the day-range fields) unrounded, so not all
price-like output fields are rounded to two decimals. -/
theorem c9_counterexample :
    (get_stock_data_yahoo_fast envNSGood "AAA").map (fun q => q.previous_close)
      = some (some (721 / 8))
    ∧ hasTwoDecimals (721 / 8) = false := by decide

/-- C9, amended: in every fetched quote, `price`, `change` and
`change_percent` are rounded to two decimal places (volume is integral
by construction and percentages keep their sign); `previous_close`,
`day_high`, `day_low` and `open` are emitted unrounded. -/
theorem c9_amended_rounding (env : Env) (s : String) (q : Quote)
    (h : get_stock_data_yahoo_fast env s = some q) :
    hasTwoDecimals q.price = true ∧ hasTwoDecimals q.change = true
      ∧ hasTwoDecimals q.change_percent = true := by
  rcases fetch_cases env s q h with hns | ⟨_, hbo⟩
  · obtain ⟨fi, p, _, _, _, rfl⟩ := (trySuffix_eq_some_iff _ _ _ _).mp hns
    exact ⟨hasTwoDecimals_round2 _, hasTwoDecimals_round2 _, hasTwoDecimals_round2 _⟩
  · obtain ⟨fi, p, _, _, _, rfl⟩ := (trySuffix_eq_some_iff _ _ _ _).mp hbo
    exact ⟨hasTwoDecimals_round2 _, hasTwoDecimals_round2 _, hasTwoDecimals_round2 _⟩

unseal Rat.sub Rat.mul Rat.add Rat.inv in
/-- Witness for C9 at a concrete environment. -/
theorem c9_witness :
    hasTwoDecimals (mkQuote envNSGood "AAA" ".NS" ⟨some 100, some (721 / 8), none⟩ 100).price = true
    ∧ hasTwoDecimals (mkQuote envNSGood "AAA" ".NS" ⟨some 100, some (721 / 8), none⟩ 100).change = true
    ∧ hasTwoDecimals (mkQuote envNSGood "AAA" ".NS" ⟨some 100, some (721 / 8), none⟩ 100).change_percent = true :=
  c9_amended_rounding envNSGood "AAA" _ (by decide)

/-- C10, counterexample to the claim as stated: in a world where the
secondary (history) call raises, the fetched quote still has its market
cap populated (it comes from the primary `fast_info` call, not the
secondary one) and its name equal to the symbol rather than an empty
enrichment field — and the quote record has no sector, 52-week or
price-earnings fields at all. -/
theorem c10_counterexample :
    histErrored (envHistErr.tickers ("AAA" ++ ".NS")) = true
    ∧ (get_stock_data_yahoo_fast envHistErr "AAA").map (fun q => q.market_cap)
      = some (some 5000)
    ∧ (get_stock_data_yahoo_fast envHistErr "AAA").map (fun q => q.name)
      = some "AAA" := by decide

/-- Usability of a ticker outcome depends only on its `fast_info`
component. -/
theorem usableFast_congr {td1 td2 : TickerData} (h : td1.fastInfo = td2.fastInfo) :
    usableFast td1 = usableFast td2 := by
  unfold usableFast
  rw [h]

/-- The success and the price of a suffix attempt depend only on the
`fast_info` outcome, not on the history outcome. -/
theorem trySuffix_price_congr (env₁ env₂ : Env) (s suf : String)
    (hfi : (env₁.tickers (s ++ suf)).fastInfo = (env₂.tickers (s ++ suf)).fastInfo) :
    (trySuffix env₁ s suf).map (fun q => q.price)
      = (trySuffix env₂ s suf).map (fun q => q.price) := by
  rcases ha : trySuffix env₁ s suf with _ | q₁ <;>
    rcases hb : trySuffix env₂ s suf with _ | q₂
  · rfl
  · rw [trySuffix_eq_none_iff, usableFast_congr hfi] at ha
    obtain ⟨fi, p, hfi2, hlp, hp, rfl⟩ := (trySuffix_eq_some_iff _ _ _ _).mp hb
    unfold usableFast at ha
    rw [hfi2] at ha
    simp [hlp, hp] at ha
  · rw [trySuffix_eq_none_iff, ← usableFast_congr hfi] at hb
    obtain ⟨fi, p, hfi1, hlp, hp, rfl⟩ := (trySuffix_eq_some_iff _ _ _ _).mp ha
    unfold usableFast at hb
    rw [hfi1] at hb
    simp [hlp, hp] at hb
  · obtain ⟨fi, p, hfi1, hlp1, hp1, rfl⟩ := (trySuffix_eq_some_iff _ _ _ _).mp ha
    obtain ⟨fi2, p2, hfi2, hlp2, hp2, rfl⟩ := (trySuffix_eq_some_iff _ _ _ _).mp hb
    rw [hfi, hfi2] at hfi1
    obtain rfl : fi2 = fi := by
      have h' := hfi1
      simp only [Except.ok.injEq, Option.some.injEq] at h'
      exact h'
    obtain rfl : p = p2 := by
      rw [hlp1] at hlp2
      exact Option.some.inj hlp2
    rfl

/-- C10, amended: the enrichment actually performed is the best-effort
history call covering volume, day high, day low and open; when it fails
those four fields are left empty but the quote is still returned —
indeed success and price of a fetch are entirely independent of the
history outcome, so enrichment failure never discards a quote with a
valid price.  Name is just the symbol and market cap comes from the
primary call; sector, 52-week range and price-earnings data are never
fetched. -/
theorem c10_amended_enrichment (env₁ env₂ : Env) (s : String)
    (hfi : ∀ t, (env₁.tickers t).fastInfo = (env₂.tickers t).fastInfo) :
    ((get_stock_data_yahoo_fast env₁ s).map (fun q => q.price)
      = (get_stock_data_yahoo_fast env₂ s).map (fun q => q.price))
    ∧ ∀ q, get_stock_data_yahoo_fast env₁ s = some q →
        histErrored (env₁.tickers q.yahoo_symbol) = true →
        q.volume = none ∧ q.day_high = none ∧ q.day_low = none ∧ q.open_ = none := by
  constructor
  · have h1 := trySuffix_price_congr env₁ env₂ s ".NS" (hfi _)
    have h2 := trySuffix_price_congr env₁ env₂ s ".BO" (hfi _)
    unfold get_stock_data_yahoo_fast
    rcases ha : trySuffix env₁ s ".NS" with _ | q₁ <;>
      rcases hb : trySuffix env₂ s ".NS" with _ | q₂ <;>
      rw [ha, hb] at h1
    · exact h2
    · cases h1
    · cases h1
    · exact h1
  · intro q hq hherr
    have hchar : ∃ suf fi p, q = mkQuote env₁ s suf fi p := by
      rcases fetch_cases env₁ s q hq with hns | ⟨_, hbo⟩
      · obtain ⟨fi, p, _, _, _, rfl⟩ := (trySuffix_eq_some_iff _ _ _ _).mp hns
        exact ⟨".NS", fi, p, rfl⟩
      · obtain ⟨fi, p, _, _, _, rfl⟩ := (trySuffix_eq_some_iff _ _ _ _).mp hbo
        exact ⟨".BO", fi, p, rfl⟩
    obtain ⟨suf, fi, p, rfl⟩ := hchar
    have hys : (mkQuote env₁ s suf fi p).yahoo_symbol = s ++ suf := rfl
    rw [hys] at hherr
    have hbasic : histBasic (env₁.tickers (s ++ suf)).hist = (none, none, none, none) := by
      unfold histErrored at hherr
      rcases hh : (env₁.tickers (s ++ suf)).hist with u | o
      · rfl
      · rw [hh] at hherr; cases hherr
    refine ⟨?_, ?_, ?_, ?_⟩
    · show (histBasic (env₁.tickers (s ++ suf)).hist).1 = none
      rw [hbasic]
    · show (histBasic (env₁.tickers (s ++ suf)).hist).2.1 = none
      rw [hbasic]
    · show (histBasic (env₁.tickers (s ++ suf)).hist).2.2.1 = none
      rw [hbasic]
    · show (histBasic (env₁.tickers (s ++ suf)).hist).2.2.2 = none
      rw [hbasic]

/-- Witness for C10: two concrete worlds agreeing on `fast_info`, one
with a failing history call, yield the same fetch success and price. -/
theorem c10_witness :
    (get_stock_data_yahoo_fast envHistErr "AAA").map (fun q => q.price)
      = (get_stock_data_yahoo_fast envHistOk "AAA").map (fun q => q.price) :=
  (c10_amended_enrichment envHistErr envHistOk "AAA" (fun t => by
    by_cases h : t = "AAA.NS" <;> simp [envHistErr, envHistOk, h])).1

end StockScraper
